import Mathlib

set_option maxRecDepth 8000

/-!  Verification of the RedCLAP recursive command-line parser
     (clap/parser.py: ParsedUI and Parser).

     The embedding models Python dynamic values explicitly (PyVal), Python
     exceptions as an error type (Err), and every loop of the source as a
     structurally recursive (or fuelled) Lean function so that all concrete
     runs reduce by rfl / decide.  -/

namespace RedClap

/-- Python dynamic values as they occur in the parser's option maps:
None, int, str, tuple and list.  (Floats never reach the option map in any
property considered here and are outside the embedding.) -/
inductive PyVal where
  | none  : PyVal
  | int   : Int → PyVal
  | str   : String → PyVal
  | tuple : List PyVal → PyVal
  | list  : List PyVal → PyVal

/-- Python exceptions raised by the parser code: KeyError (dict / mode
lookups), IndexError (list indexing and pop from empty list), ValueError
(failed int coercion), TypeError (unsupported +), AttributeError
(calling .append on a non-list), and the option-not-found failure of the
specification model's getOption query (spec section 7, OptionNotFound). -/
inductive Err where
  | keyError       : String → Err
  | indexError     : Err
  | valueError     : Err
  | typeError      : Err
  | attributeError : Err
  | optionNotFound : String → Err
deriving DecidableEq

/-- Modelled from the spec: the Token Classifier (clap/shared.py, absent from
src/).  Spec section 2: a token looks like an option when it begins with one
or two leading dashes and is not a bare separator; a lone dash leads nothing,
so it is not an option token. -/
def lookslikeopt (s : String) : Bool :=
  (match s.data with
   | '-' :: _ => true
   | _ => false) && s != "-" && s != "--"

/-- Modelled from the spec: an Option Descriptor of the Specification Model
(clap/option.py, absent from src/).  Spec section 3: canonical name, zero or
one alias, a list of per-parameter type-handler identifiers (arity = length),
and a plurality flag.  Scope is represented by which list of its mode the
descriptor sits in (local vs global), mirroring the partition of section 3. -/
structure OptionDescr where
  name      : String
  aliasName : Option String
  params    : List String
  plural    : Bool
deriving DecidableEq

/-- Modelled from the spec: an option descriptor matches a token when the
token is its canonical name or its declared alias. -/
def OptionDescr.matchName (o : OptionDescr) (s : String) : Bool :=
  s == o.name || o.aliasName == some s

/-- Modelled from the spec: a Mode Descriptor (clap/mode.py, absent from
src/): locally scoped options, globally scoped options, and named child
modes (spec sections 3 and 6). -/
inductive Mode where
  | mk : List OptionDescr → List OptionDescr → List (String × Mode) → Mode

def Mode.localOpts : Mode → List OptionDescr
  | .mk l _ _ => l

def Mode.globalOpts : Mode → List OptionDescr
  | .mk _ g _ => g

def Mode.submodes : Mode → List (String × Mode)
  | .mk _ _ ms => ms

/-- All options of a mode, locally scoped first (used by option lookup). -/
def Mode.allOpts (m : Mode) : List OptionDescr :=
  m.localOpts ++ m.globalOpts

/-- Modelled from the spec: getOption - first declared descriptor matching
the token, none when the mode never declared it. -/
def Mode.getopt (m : Mode) (k : String) : Option OptionDescr :=
  m.allOpts.find? (fun o => o.matchName k)

/-- Modelled from the spec: acceptsOption. -/
def Mode.accepts (m : Mode) (k : String) : Bool :=
  (m.getopt k).isSome

/-- Modelled from the spec: optionArity, as the list of declared per-parameter
type-handler identifiers; an undeclared token takes no parameters. -/
def Mode.params (m : Mode) (k : String) : List String :=
  ((m.getopt k).map OptionDescr.params).getD []

/-- Modelled from the spec: optionAlias - the other spelling of the matched
option (spec section 4.2 records an extra occurrence only for options that
declare an alias, so a token without one maps to itself). -/
def Mode.aliasOf (m : Mode) (k : String) : String :=
  match m.getopt k with
  | Option.none => k
  | Option.some o => if k == o.name then o.aliasName.getD k else o.name

/-- Modelled from the spec: hasChildMode. -/
def Mode.hasmode (m : Mode) (k : String) : Bool :=
  (m.submodes.find? (fun p => p.1 == k)).isSome

/-- Modelled from the spec: getChildMode (None when absent; the parser's
direct dict access _modes[name] turns absence into a KeyError). -/
def Mode.getmode (m : Mode) (k : String) : Option Mode :=
  (m.submodes.find? (fun p => p.1 == k)).map (fun p => p.2)

/-- Modelled from the spec: the type-handler registry (spec section 6).  The
source registers str, int and float; float never occurs in any property
considered here and floating point is outside the embedding.  Unregistered
identifiers are absent (dict lookup then raises KeyError). -/
def typehandlers : String → Option (String → Except Err PyVal)
  | "str" => Option.some (fun s => Except.ok (PyVal.str s))
  | "int" => Option.some (fun s =>
      match s.toInt? with
      | Option.some n => Except.ok (PyVal.int n)
      | Option.none => Except.error Err.valueError)
  | _ => Option.none

/-- The parser's option map: a Python dict from option name to dynamic value,
modelled as an insertion-ordered association list with unique keys. -/
abbrev AList : Type := List (String × PyVal)

def lookupA (l : List (String × PyVal)) (k : String) : Option PyVal :=
  (l.find? (fun p => p.1 == k)).map (fun p => p.2)

/-- Dict write: replace in place when the key exists (keeping its position,
as Python dicts do), append otherwise. -/
def insertA : List (String × PyVal) → String → PyVal → List (String × PyVal)
  | [], k, v => [(k, v)]
  | (k', v') :: t, k, v =>
      if k' == k then (k, v) :: t else (k', v') :: insertA t k v

def containsA (l : List (String × PyVal)) (k : String) : Bool :=
  (lookupA l k).isSome

/-- Python + on the values reachable from the option map (list += value,
int += value and friends): int+int, str+str, list+list, tuple+tuple;
anything else raises TypeError. -/
def pyAdd : PyVal → PyVal → Except Err PyVal
  | PyVal.int a, PyVal.int b => Except.ok (PyVal.int (a + b))
  | PyVal.str a, PyVal.str b => Except.ok (PyVal.str (a ++ b))
  | PyVal.list a, PyVal.list b => Except.ok (PyVal.list (a ++ b))
  | PyVal.tuple a, PyVal.tuple b => Except.ok (PyVal.tuple (a ++ b))
  | _, _ => Except.error Err.typeError

/-- Python iteration over a value (used by tuple(...) and comprehensions):
lists and tuples yield their elements, a str yields its characters as
one-character strings, anything else raises TypeError. -/
def pyIter : PyVal → Except Err (List PyVal)
  | PyVal.list vs => Except.ok vs
  | PyVal.tuple vs => Except.ok vs
  | PyVal.str s => Except.ok (s.toList.map (fun c => PyVal.str (String.singleton c)))
  | _ => Except.error Err.typeError

/-- Python value[n]. -/
def pyIndex (v : PyVal) (n : Nat) : Except Err PyVal :=
  match pyIter v with
  | Except.error e => Except.error e
  | Except.ok vs =>
    match vs.get? n with
    | Option.some x => Except.ok x
    | Option.none => Except.error Err.indexError

/-- Python tuple(value). -/
def pyTuple (v : PyVal) : Except Err PyVal :=
  match pyIter v with
  | Except.error e => Except.error e
  | Except.ok vs => Except.ok (PyVal.tuple vs)

/-- Python [tuple(x) for x in value]. -/
def pyMapTuple (v : PyVal) : Except Err PyVal :=
  match pyIter v with
  | Except.error e => Except.error e
  | Except.ok vs =>
    match vs.mapM pyTuple with
    | Except.error e => Except.error e
    | Except.ok vs2 => Except.ok (PyVal.list vs2)

/-- Parser._getinput (clap/parser.py lines 152-177): length of the input
window.  One call per loop iteration of the source; prev is the token at
index i-1 (none at i=0).  A skip over an option's declared parameters
consumes 1 + (arity - 1) further tokens at once (clamped at the end of the
slice, as Python slicing clamps), exactly as the source's
i += len(params)-1; index = i; i += 1 does.  The fuel only bounds the
iteration count; any fuel above the slice length is enough. -/
def getinputGo (m : Mode) : Nat → Option String → List String → Nat
  | 0, _, _ => 0
  | _, _, [] => 0
  | fuel + 1, prev, item :: rest =>
    if item = "--" then 0
    else
      match prev with
      | Option.none =>
        if lookslikeopt item then 1 + getinputGo m fuel (Option.some item) rest
        else 0
      | Option.some p =>
        if lookslikeopt item then 1 + getinputGo m fuel (Option.some item) rest
        else if lookslikeopt p then
          if m.params p = [] then 0
          else
            let k := (m.params p).length - 1
            min (1 + k) (1 + rest.length) +
              getinputGo m fuel (Option.some ((item :: rest).getD k "")) (rest.drop k)
        else 0

/-- Parser._getinput: the window of the argument list that can contain the
current mode's own options. -/
def getinput (m : Mode) (args : List String) : List String :=
  args.take (getinputGo m (args.length + 1) Option.none args)

/-- One option occurrence of Parser.parse's first loop: token it was recorded
under, and (for options with parameters) its coerced parameter values. -/
abbrev Occ : Type := String × Option (List PyVal)

/-- The parameter-coercion inner loop of Parser.parse (lines 303-305): for
each declared handler identifier, look the handler up in the registry (a
missing one raises KeyError), index the raw slice (a missing token raises
IndexError), and apply the handler. -/
def coerce : List String → List String → Except Err (List PyVal)
  | [], _ => Except.ok []
  | nm :: ps, raw =>
    match typehandlers nm with
    | Option.none => Except.error (Err.keyError nm)
    | Option.some cb =>
      match raw with
      | [] => Except.error Err.indexError
      | s :: raw2 =>
        match cb s with
        | Except.error e => Except.error e
        | Except.ok v =>
          match coerce ps raw2 with
          | Except.error e => Except.error e
          | Except.ok vs => Except.ok (v :: vs)

/-- The option-scanning loop of Parser.parse (lines 293-312): a recognized
zero-arity option is recorded with no value, a recognized option with
parameters consumes and coerces the next arity tokens; in both cases an
option with a declared alias is also recorded under the alias spelling;
any other token ends the scan.  Fuel bounds the iteration count only. -/
def tokenizeGo (m : Mode) : Nat → List String → Except Err (List Occ)
  | 0, _ => Except.ok []
  | _, [] => Except.ok []
  | fuel + 1, item :: rest =>
    if lookslikeopt item && m.accepts item && (m.params item).isEmpty then
      match tokenizeGo m fuel rest with
      | Except.error e => Except.error e
      | Except.ok os =>
        Except.ok ((item, Option.none) ::
          ((if m.aliasOf item ≠ item then [(m.aliasOf item, Option.none)] else []) ++ os))
    else if lookslikeopt item && m.accepts item && !(m.params item).isEmpty then
      let n := (m.params item).length
      match coerce (m.params item) (rest.take n) with
      | Except.error e => Except.error e
      | Except.ok vals =>
        match tokenizeGo m fuel (rest.drop n) with
        | Except.error e => Except.error e
        | Except.ok os =>
          Except.ok ((item, Option.some vals) ::
            ((if m.aliasOf item ≠ item then [(m.aliasOf item, Option.some vals)] else []) ++ os))
    else Except.ok []

def tokenize (m : Mode) (input : List String) : Except Err (List Occ) :=
  tokenizeGo m (input.length + 1) input

/-- One step of the aggregation loop of Parser.parse (lines 313-321),
building the options dict from the occurrence list. -/
def aggStep (m : Mode) (acc : List (String × PyVal)) (occ : Occ) :
    Except Err (List (String × PyVal)) :=
  match m.getopt occ.1 with
  | Option.none => Except.error (Err.keyError occ.1)
  | Option.some o =>
    if o.plural && !o.params.isEmpty then
      match (lookupA acc occ.1).getD (PyVal.list []) with
      | PyVal.list vs =>
        let v := match occ.2 with
          | Option.some args => PyVal.list args
          | Option.none => PyVal.none
        Except.ok (insertA acc occ.1 (PyVal.list (vs ++ [v])))
      | _ => Except.error Err.attributeError
    else if o.plural && o.params.isEmpty then
      match (lookupA acc occ.1).getD (PyVal.int 0) with
      | PyVal.int n => Except.ok (insertA acc occ.1 (PyVal.int (n + 1)))
      | _ => Except.error Err.typeError
    else
      Except.ok (insertA acc occ.1
        (match occ.2 with
         | Option.some args => PyVal.tuple args
         | Option.none => PyVal.none))

/-- The value one aggregation step stores for its key, as a function of the
entry currently held at that key (a proof-side restatement of the three
branches of aggStep; aggStep below is shown to insert exactly this value). -/
def aggVal (o : OptionDescr) (cur : Option PyVal) (v : Option (List PyVal)) :
    Except Err PyVal :=
  if o.plural && !o.params.isEmpty then
    match cur.getD (PyVal.list []) with
    | PyVal.list vs =>
      Except.ok (PyVal.list (vs ++
        [match v with
         | Option.some args => PyVal.list args
         | Option.none => PyVal.none]))
    | _ => Except.error Err.attributeError
  else if o.plural && o.params.isEmpty then
    match cur.getD (PyVal.int 0) with
    | PyVal.int n => Except.ok (PyVal.int (n + 1))
    | _ => Except.error Err.typeError
  else
    Except.ok
      (match v with
       | Option.some args => PyVal.tuple args
       | Option.none => PyVal.none)

def aggregate (m : Mode) : List Occ → List (String × PyVal) →
    Except Err (List (String × PyVal))
  | [], acc => Except.ok acc
  | occ :: t, acc =>
    match aggStep m acc occ with
    | Except.error e => Except.error e
    | Except.ok acc2 => aggregate m t acc2

/-- Parser._isAcceptedInChildModes (lines 190-198). -/
def acceptedInChildModes (m : Mode) (k : String) : Bool :=
  m.submodes.any (fun p => p.2.accepts k)

/-- Parser._heuralgo's loop (lines 200-217), with the operands accumulated
so far carried in order.  The retraction branch pops the most recently
appended operand (pop(-1) raises IndexError when none was appended yet) and
returns it at the head of the nested slice, exactly as the source's
operands.pop(-1); i -= 1; break followed by nested = opers[i:]. -/
def heuralgoGo (m : Mode) (operands : List String) :
    List String → Except Err (List String × List String)
  | [] => Except.ok (operands, [])
  | item :: rest =>
    if m.hasmode item then Except.ok (operands, item :: rest)
    else if lookslikeopt item && acceptedInChildModes m item then
      match operands.reverse with
      | [] => Except.error Err.indexError
      | last :: initrev => Except.ok (initrev.reverse, last :: item :: rest)
    else heuralgoGo m (operands ++ [item]) rest

/-- Parser._heuralgo. -/
def heuralgo (m : Mode) (opers : List String) :
    Except Err (List String × List String) :=
  heuralgoGo m [] opers

/-- Parser._getheuroperands (lines 219-231): everything after the input
window; a leading separator is consumed and suppresses the heuristic (no
nested-mode detection), otherwise the heuristic splits operands from nested
input. -/
def getheuroperands (m : Mode) (args : List String) :
    Except Err (List String × List String) :=
  match args.drop (getinput m args).length with
  | [] => heuralgo m []
  | x :: t => if x = "--" then Except.ok (t, []) else heuralgo m (x :: t)

/-- ParsedUI (clap/parser.py lines 11-109): one node of the parse-result
chain.  The parent back-reference of the source is represented by the
nesting itself (the child is owned by its parent node). -/
inductive ParsedUI where
  | mk : List (String × PyVal) → List String → String → Mode → Option ParsedUI → ParsedUI

def ParsedUI.optionsA : ParsedUI → List (String × PyVal)
  | .mk o _ _ _ _ => o

def ParsedUI.operandsL : ParsedUI → List String
  | .mk _ od _ _ _ => od

def ParsedUI.nameStr : ParsedUI → String
  | .mk _ _ n _ _ => n

def ParsedUI.modeOf : ParsedUI → Mode
  | .mk _ _ _ m _ => m

def ParsedUI.childUI : ParsedUI → Option ParsedUI
  | .mk _ _ _ _ c => c

/-- ParsedUI.__contains__ (lines 21-24): plain dict membership. -/
def ParsedUI.containsOpt (ui : ParsedUI) (k : String) : Bool :=
  containsA ui.optionsA k

/-- ParsedUI.islast (lines 64-67). -/
def ParsedUI.islast (ui : ParsedUI) : Bool :=
  ui.childUI.isNone

/-- Number of nested child results hanging off a node (the number of
recursive nested-mode invocations that produced the chain). -/
def ParsedUI.nmodes : ParsedUI → Nat
  | .mk _ _ _ _ Option.none => 0
  | .mk _ _ _ _ (Option.some c) => c.nmodes + 1

/-- ParsedUI.get (lines 85-104).  The option is looked up in the node's mode
first (an undeclared name is the spec's OptionNotFound failure, modelled
from the spec since clap/mode.py is absent from src/), then the stored value
(a missing dict entry raises KeyError); the declared shape of the descriptor
selects the returned form. -/
def ParsedUI.get (ui : ParsedUI) (key : String) (tuplise : Bool) : Except Err PyVal :=
  match ui.modeOf.getopt key with
  | Option.none => Except.error (Err.optionNotFound key)
  | Option.some o =>
    match lookupA ui.optionsA key with
    | Option.none => Except.error (Err.keyError key)
    | Option.some value =>
      if o.plural && o.params.isEmpty then Except.ok value
      else if o.params.isEmpty then Except.ok PyVal.none
      else if o.params.length == 1 && !o.plural then pyIndex value 0
      else if tuplise then
        (if o.plural then pyMapTuple value else pyTuple value)
      else Except.ok value

/-- The first matching globally scoped option of a mode, as computed by the
inner loop of ParsedUI.finalise (lines 74-78). -/
def findGlobal (m : Mode) (k : String) : Option OptionDescr :=
  m.globalOpts.find? (fun o => o.matchName k)

/-- One parent-entry step of ParsedUI.finalise (lines 79-81): when the key
names a globally scoped option of the parent's mode, a child entry of a
repeatable zero-arity option accumulates the parent's value, and an absent
child entry receives a copy of the parent's value. -/
def pushOne (md : Mode) (copts : List (String × PyVal)) (k : String) (v : PyVal) :
    Except Err (List (String × PyVal)) :=
  match findGlobal md k with
  | Option.none => Except.ok copts
  | Option.some o =>
    match lookupA copts k with
    | Option.some cv =>
      if o.plural && o.params.isEmpty then
        match pyAdd cv v with
        | Except.error e => Except.error e
        | Except.ok nv => Except.ok (insertA copts k nv)
      else Except.ok copts
    | Option.none => Except.ok (insertA copts k v)

/-- The loop over the parent's option entries in ParsedUI.finalise. -/
def pushAll (md : Mode) : List (String × PyVal) → List (String × PyVal) →
    Except Err (List (String × PyVal))
  | [], copts => Except.ok copts
  | (k, v) :: t, copts =>
    match pushOne md copts k v with
    | Except.error e => Except.error e
    | Except.ok copts2 => pushAll md t copts2

/-- ParsedUI.finalise's walk below a node: the child receives the parent's
globally scoped entries, then recurses with its own (updated) entries. -/
def finaliseInto (md : Mode) (popts : List (String × PyVal)) :
    ParsedUI → Except Err ParsedUI
  | .mk copts cops cnm cmd cchild =>
    match pushAll md popts copts with
    | Except.error e => Except.error e
    | Except.ok copts2 =>
      match cchild with
      | Option.none => Except.ok (.mk copts2 cops cnm cmd Option.none)
      | Option.some cc =>
        match finaliseInto cmd copts2 cc with
        | Except.error e => Except.error e
        | Except.ok cc2 => Except.ok (.mk copts2 cops cnm cmd (Option.some cc2))

/-- ParsedUI.finalise (lines 69-83). -/
def ParsedUI.finalise : ParsedUI → Except Err ParsedUI
  | .mk opts ops nm md Option.none => Except.ok (.mk opts ops nm md Option.none)
  | .mk opts ops nm md (Option.some c) =>
    match finaliseInto md opts c with
    | Except.error e => Except.error e
    | Except.ok c2 => Except.ok (.mk opts ops nm md (Option.some c2))

/-- Set the name and mode fields, as Parser.parse does on the result of a
nested parse (lines 330-331). -/
def ParsedUI.withNameMode : ParsedUI → String → Mode → ParsedUI
  | .mk o op _ _ c, nm, md => .mk o op nm md c

/-- Parser.parse (lines 285-333), fuelled: none means the fuel ran out (which
the adequacy theorem rules out for fuel above the token count).  The input
window is scanned into occurrences, occurrences are aggregated into the
options dict, the remaining tokens are split into operands and nested input,
and a nonempty nested input names a child mode (a dict KeyError when it does
not) that is parsed recursively and linked as the child result. -/
def parseF : Nat → Mode → List String → Option (Except Err ParsedUI)
  | 0, _, _ => Option.none
  | fuel + 1, m, args =>
    match tokenize m (getinput m args) with
    | Except.error e => Option.some (Except.error e)
    | Except.ok occs =>
      match aggregate m occs [] with
      | Except.error e => Option.some (Except.error e)
      | Except.ok opts =>
        match getheuroperands m args with
        | Except.error e => Option.some (Except.error e)
        | Except.ok (operands, []) =>
          Option.some (Except.ok (.mk opts operands "" m Option.none))
        | Except.ok (operands, name :: rest) =>
          match m.getmode name with
          | Option.none => Option.some (Except.error (Err.keyError name))
          | Option.some cm =>
            match parseF fuel cm rest with
            | Option.none => Option.none
            | Option.some (Except.error e) => Option.some (Except.error e)
            | Option.some (Except.ok cui) =>
              Option.some (Except.ok
                (.mk opts operands "" m (Option.some (cui.withNameMode name cm))))

/-- Parser.parse followed by Parser.ui: the parse-result chain for a mode and
an argument list.  The fuel one above the token count always suffices (the
adequacy theorem below), so the fallback value is never produced. -/
def parse (m : Mode) (args : List String) : Except Err ParsedUI :=
  (parseF (args.length + 1) m args).getD (Except.error Err.indexError)

/-!  Concrete fixtures used by the witnesses and counterexamples. -/

/-- A zero-arity local option -x. -/
def optX : OptionDescr := ⟨"-x", Option.none, [], false⟩

/-- A zero-arity local option -y. -/
def optY : OptionDescr := ⟨"-y", Option.none, [], false⟩

/-- Child mode go accepting only -y. -/
def goMode : Mode := .mk [optY] [] []

/-- Root mode accepting only -x, with the single child mode go. -/
def rootMode : Mode := .mk [optX] [] [("go", goMode)]

/-- A zero-arity local option named long with a short alias. -/
def optV : OptionDescr := ⟨"--verbose", Option.some "-v", [], false⟩

/-- A mode accepting only the aliased option. -/
def modeV : Mode := .mk [optV] [] []

/-- A zero-arity local option spelled like a long flag. -/
def optFlag : OptionDescr := ⟨"--flag", Option.none, [], false⟩

/-- A mode accepting only the long flag, with a child mode named a
(used to show the separator disables nested-mode detection). -/
def modeFlag : Mode := .mk [optFlag] [] [("a", goMode)]

/-- An arity-one local option -o with a str-typed parameter. -/
def optO : OptionDescr := ⟨"-o", Option.none, ["str"], false⟩

/-- A mode accepting only the arity-one option, with no child modes. -/
def modeO : Mode := .mk [optO] [] []

/-- An arity-one globally scoped option. -/
def optG : OptionDescr := ⟨"--output", Option.none, ["str"], false⟩

/-- A zero-arity repeatable globally scoped option. -/
def optVerb : OptionDescr := ⟨"--loud", Option.none, [], true⟩

/-- Child mode of the global-propagation fixtures. -/
def subMode : Mode := .mk [] [optG, optVerb] []

/-- Parent mode of the global-propagation fixtures. -/
def topMode : Mode := .mk [] [optG, optVerb] [("sub", subMode)]

/-- Stored value of the arity-one globally scoped option in the
propagation fixtures. -/
def valOut : PyVal := PyVal.tuple [PyVal.str "f"]

/-- Finalised two-level chain of the copy-down fixture: the child received
the parent's --output entry. -/
def uiC3r : ParsedUI := .mk [("--output", valOut)] [] "" topMode
  (Option.some (.mk [("--output", valOut)] [] "sub" subMode Option.none))

/-- Finalised two-level chain of the count-merge fixture: parent count 2
and child count 3 merged to 5. -/
def uiC4r : ParsedUI := .mk [("--loud", PyVal.int 2)] [] "" topMode
  (Option.some (.mk [("--loud", PyVal.int 5)] [] "sub" subMode Option.none))

/-- Result of parsing the alias fixture input: the occurrence was recorded
under both spellings. -/
def uiC5 : ParsedUI := .mk [("-v", PyVal.none), ("--verbose", PyVal.none)] [] "" modeV
  Option.none

/-- Result of parsing a two-level invocation of the root/go fixture. -/
def uiC9 : ParsedUI := .mk [("-x", PyVal.none)] [] "" rootMode
  (Option.some (.mk [("-y", PyVal.none)] [] "go" goMode Option.none))

/-- Keys of an association list. -/
def keysA (l : List (String × PyVal)) : List String :=
  l.map Prod.fst

/-- Occurrence lists in which every record at one of two fixed names comes
as an adjacent pair carrying the same value under both names - the shape
the tokenizer produces for an option declared with an alias. -/
inductive Paired (a b : String) : List Occ → Prop where
  | nil : Paired a b []
  | other {k : String} {v : Option (List PyVal)} {t : List Occ} :
      k ≠ a → k ≠ b → Paired a b t → Paired a b ((k, v) :: t)
  | pairAB {v : Option (List PyVal)} {t : List Occ} :
      Paired a b t → Paired a b ((a, v) :: (b, v) :: t)
  | pairBA {v : Option (List PyVal)} {t : List Occ} :
      Paired a b t → Paired a b ((b, v) :: (a, v) :: t)

/-!  Helper lemmas about the association-list option map. -/

theorem lookupA_insertA (l : List (String × PyVal)) (k k' : String) (v : PyVal) :
    lookupA (insertA l k v) k' = if k' = k then Option.some v else lookupA l k' := by
  induction l with
  | nil =>
    by_cases h : k' = k
    · subst h; simp [insertA, lookupA, List.find?]
    · have hkk : (k == k') = false := by
        simp only [beq_eq_false_iff_ne]
        exact fun he => h he.symm
      simp [insertA, lookupA, List.find?, hkk, h]
  | cons hd t ih =>
    obtain ⟨k₁, v₁⟩ := hd
    by_cases h1 : k₁ = k
    · subst h1
      by_cases h : k' = k₁
      · subst h; simp [insertA, lookupA, List.find?]
      · have hkk : (k₁ == k') = false := by
          simp only [beq_eq_false_iff_ne]
          exact fun he => h he.symm
        simp [insertA, lookupA, List.find?, hkk, h]
    · have h1' : (k₁ == k) = false := by simpa using h1
      by_cases h2 : k₁ = k'
      · subst h2
        simp [insertA, lookupA, List.find?, h1', h1]
      · have hkk : (k₁ == k') = false := by
          simp only [beq_eq_false_iff_ne]
          exact h2
        simp only [insertA, h1', Bool.false_eq_true, if_false]
        simp only [lookupA, List.find?, hkk]
        have := ih
        simp only [lookupA] at this
        exact this

theorem lookupA_insertA_self (l : List (String × PyVal)) (k : String) (v : PyVal) :
    lookupA (insertA l k v) k = Option.some v := by
  simp [lookupA_insertA]

theorem lookupA_insertA_ne (l : List (String × PyVal)) (k k' : String) (v : PyVal)
    (h : k' ≠ k) : lookupA (insertA l k v) k' = lookupA l k' := by
  simp [lookupA_insertA, h]

theorem lookupA_mem (l : List (String × PyVal)) (k : String) (v : PyVal)
    (h : lookupA l k = Option.some v) : (k, v) ∈ l := by
  simp only [lookupA, Option.map_eq_some'] at h
  obtain ⟨⟨k₁, v₁⟩, hf, he⟩ := h
  have hm := List.mem_of_find?_eq_some hf
  have hp := List.find?_some hf
  simp at hp he
  subst hp
  subst he
  exact hm

/-- find? returns the given element when it is the unique satisfier. -/
theorem find?_eq_some_of_unique {α : Type} (p : α → Bool) (l : List α) (o : α)
    (hmem : o ∈ l) (hp : p o = true) (huniq : ∀ x ∈ l, p x = true → x = o) :
    l.find? p = Option.some o := by
  induction l with
  | nil => cases hmem
  | cons hd t ih =>
    by_cases h : p hd = true
    · have : hd = o := huniq hd (List.mem_cons_self hd t) h
      subst this
      simp [List.find?, h]
    · have hne : hd ≠ o := fun he => h (he ▸ hp)
      have hmem' : o ∈ t := by
        cases hmem with
        | head => exact absurd rfl hne
        | tail _ hm => exact hm
      rw [List.find?_cons_of_neg _ (by simpa using h)]
      exact ih hmem' (fun x hx hpx => huniq x (List.mem_cons_of_mem hd hx) hpx)

/-!  Helper lemmas about the heuristic operand / nested-mode splitter. -/

/-- The nested slice returned by the heuristic loop is no longer than the
operands accumulated so far plus the remaining slice. -/
theorem heuralgoGo_nested_length (m : Mode) :
    ∀ (l acc ops ns : List String), heuralgoGo m acc l = Except.ok (ops, ns) →
      ns.length ≤ acc.length + l.length := by
  intro l
  induction l with
  | nil =>
    intro acc ops ns h
    simp only [heuralgoGo] at h
    cases h
    simp
  | cons item rest ih =>
    intro acc ops ns h
    simp only [heuralgoGo] at h
    by_cases h1 : m.hasmode item = true
    · rw [if_pos h1] at h
      cases h
      simp [Nat.succ_le_succ, Nat.le_add_left]
    · rw [if_neg h1] at h
      by_cases h2 : (lookslikeopt item && acceptedInChildModes m item) = true
      · rw [if_pos h2] at h
        cases hrev : acc.reverse with
        | nil => rw [hrev] at h; cases h
        | cons last initrev =>
          rw [hrev] at h
          cases h
          have : acc.length = initrev.length + 1 := by
            have := congrArg List.length hrev
            simpa using this
          simp [this]
          omega
      · rw [if_neg h2] at h
        have := ih (acc ++ [item]) ops ns h
        simpa [Nat.add_comm, Nat.add_assoc, Nat.add_left_comm] using this

/-- The heuristic loop never fails once at least one operand was appended. -/
theorem heuralgoGo_ok_of_acc_ne_nil (m : Mode) :
    ∀ (l acc : List String), acc ≠ [] →
      ∃ r, heuralgoGo m acc l = Except.ok r := by
  intro l
  induction l with
  | nil => intro acc _; exact ⟨(acc, []), rfl⟩
  | cons item rest ih =>
    intro acc hacc
    simp only [heuralgoGo]
    by_cases h1 : m.hasmode item = true
    · rw [if_pos h1]; exact ⟨(acc, item :: rest), rfl⟩
    · rw [if_neg h1]
      by_cases h2 : (lookslikeopt item && acceptedInChildModes m item) = true
      · rw [if_pos h2]
        cases hrev : acc.reverse with
        | nil => exact absurd (by simpa using congrArg List.reverse hrev) hacc
        | cons last initrev => exact ⟨(initrev.reverse, last :: item :: rest), rfl⟩
      · rw [if_neg h2]
        exact ih (acc ++ [item]) (by simp)

/-- The heuristic loop, started as _heuralgo starts it (no operands yet),
succeeds whenever the first token of its slice does not look like an
option. -/
theorem heuralgo_ok_of_head_not_llo (m : Mode) (l : List String)
    (hhead : ∀ x xs, l = x :: xs → lookslikeopt x = false) :
    ∃ r, heuralgo m l = Except.ok r := by
  cases l with
  | nil => exact ⟨([], []), rfl⟩
  | cons item rest =>
    simp only [heuralgo, heuralgoGo]
    by_cases h1 : m.hasmode item = true
    · rw [if_pos h1]; exact ⟨([], item :: rest), rfl⟩
    · rw [if_neg h1]
      have hllo : lookslikeopt item = false := hhead item rest rfl
      rw [if_neg (by simp [hllo])]
      exact heuralgoGo_ok_of_acc_ne_nil m rest [item] (by simp)

/-!  Helper lemmas about the input window: after the window is removed, the
slice never starts with an option-looking token. -/

theorem getinputGo_drop_not_llo (m : Mode) :
    ∀ (fuel : Nat) (prev : Option String) (l : List String), l.length < fuel →
      ∀ x xs, l.drop (getinputGo m fuel prev l) = x :: xs → lookslikeopt x = false := by
  intro fuel
  induction fuel with
  | zero => intro prev l h; omega
  | succ fuel ih =>
    intro prev l hlen x xs hdrop
    cases l with
    | nil => simp at hdrop
    | cons item rest =>
      by_cases hsep : item = "--"
      · subst hsep
        simp only [getinputGo, if_pos rfl] at hdrop
        simp only [List.drop] at hdrop
        cases hdrop
        simp [lookslikeopt]
      · cases prev with
        | none =>
          by_cases hllo : lookslikeopt item = true
          · simp only [getinputGo, if_neg hsep, hllo, if_true] at hdrop
            rw [show 1 + getinputGo m fuel (Option.some item) rest =
                getinputGo m fuel (Option.some item) rest + 1 from by omega,
              List.drop_succ_cons] at hdrop
            exact ih (Option.some item) rest (by simp at hlen; omega) x xs hdrop
          · simp only [getinputGo, if_neg hsep] at hdrop
            rw [if_neg hllo] at hdrop
            simp only [List.drop] at hdrop
            cases hdrop
            simpa using hllo
        | some p =>
          by_cases hllo : lookslikeopt item = true
          · simp only [getinputGo, if_neg hsep, hllo, if_true] at hdrop
            rw [show 1 + getinputGo m fuel (Option.some item) rest =
                getinputGo m fuel (Option.some item) rest + 1 from by omega,
              List.drop_succ_cons] at hdrop
            exact ih (Option.some item) rest (by simp at hlen; omega) x xs hdrop
          · simp only [getinputGo, if_neg hsep] at hdrop
            rw [if_neg hllo] at hdrop
            by_cases hp : lookslikeopt p = true
            · rw [if_pos hp] at hdrop
              by_cases hpar : m.params p = []
              · rw [if_pos hpar] at hdrop
                simp only [List.drop] at hdrop
                cases hdrop
                simpa using hllo
              · rw [if_neg hpar] at hdrop
                set k := (m.params p).length - 1 with hk
                by_cases hcl : k ≤ rest.length
                · have hmin : min (1 + k) (1 + rest.length) = 1 + k := by omega
                  rw [hmin] at hdrop
                  have heq : (item :: rest).drop (1 + k +
                      getinputGo m fuel (Option.some ((item :: rest).getD k "")) (rest.drop k)) =
                      (rest.drop k).drop
                        (getinputGo m fuel (Option.some ((item :: rest).getD k "")) (rest.drop k)) := by
                    rw [← List.drop_drop]
                    have hstep : (item :: rest).drop (1 + k) = rest.drop k := by
                      rw [show 1 + k = k + 1 from by omega, List.drop_succ_cons]
                    rw [hstep]
                  rw [heq] at hdrop
                  exact ih _ (rest.drop k)
                    (by simp at hlen ⊢; omega) x xs hdrop
                · have hmin : min (1 + k) (1 + rest.length) = 1 + rest.length := by omega
                  rw [hmin] at hdrop
                  have hnil : (item :: rest).drop (1 + rest.length +
                      getinputGo m fuel (Option.some ((item :: rest).getD k "")) (rest.drop k)) = [] := by
                    apply List.drop_eq_nil_of_le
                    simp
                    omega
                  rw [hnil] at hdrop
                  cases hdrop
            · rw [if_neg hp] at hdrop
              simp only [List.drop] at hdrop
              cases hdrop
              simpa using hllo

/-- Dropping as many tokens as the input window is long is dropping the
window-length prefix of the original list. -/
theorem drop_take_length (n : Nat) (l : List String) :
    l.drop (l.take n).length = l.drop n := by
  rw [List.length_take]
  by_cases h : n ≤ l.length
  · rw [Nat.min_eq_left h]
  · rw [Nat.min_eq_right (by omega)]
    rw [List.drop_length, List.drop_eq_nil_of_le (by omega)]

/-- The slice that follows the input window never starts with an
option-looking token. -/
theorem getinput_drop_head_not_llo (m : Mode) (args : List String) (x : String)
    (xs : List String) (h : args.drop (getinput m args).length = x :: xs) :
    lookslikeopt x = false := by
  rw [getinput, drop_take_length] at h
  exact getinputGo_drop_not_llo m (args.length + 1) Option.none args
    (Nat.lt_succ_self _) x xs h

/-- The operand / nested-mode splitter as called by parse never fails: the
slice it hands to the heuristic never starts with an option-looking token,
so the empty-pop IndexError of _heuralgo is unreachable from parse. -/
theorem getheuroperands_ok (m : Mode) (args : List String) :
    ∃ r, getheuroperands m args = Except.ok r := by
  simp only [getheuroperands]
  cases hop : args.drop (getinput m args).length with
  | nil => exact ⟨([], []), rfl⟩
  | cons x t =>
    show ∃ r, (if x = "--" then Except.ok (t, []) else heuralgo m (x :: t)) = Except.ok r
    by_cases hx : x = "--"
    · rw [if_pos hx]
      exact ⟨(t, []), rfl⟩
    · rw [if_neg hx]
      apply heuralgo_ok_of_head_not_llo
      intro y ys hy
      cases hy
      exact getinput_drop_head_not_llo m args _ _ hop

/-- The nested slice produced by the splitter is no longer than the full
argument list. -/
theorem getheuroperands_nested_length (m : Mode) (args : List String)
    (ops ns : List String) (h : getheuroperands m args = Except.ok (ops, ns)) :
    ns.length ≤ args.length := by
  have hdroplen : (args.drop (getinput m args).length).length ≤ args.length := by
    rw [List.length_drop]
    omega
  simp only [getheuroperands] at h
  cases hop : args.drop (getinput m args).length with
  | nil =>
    rw [hop] at h
    simp only [heuralgo, heuralgoGo] at h
    cases h
    simp
  | cons x t =>
    rw [hop] at h
    rw [hop] at hdroplen
    have h' : (if x = "--" then Except.ok (t, []) else heuralgo m (x :: t)) =
        Except.ok (ops, ns) := h
    clear h
    by_cases hx : x = "--"
    · rw [if_pos hx] at h' 
      cases h'
      simp
    · rw [if_neg hx] at h'
      have := heuralgoGo_nested_length m (x :: t) [] ops ns h'
      simp at this hdroplen
      omega

/-!  Helper lemmas about the fuelled parser: any fuel above the token count
behaves identically, which is exactly the termination argument. -/

theorem nmodes_withNameMode (ui : ParsedUI) (nm : String) (md : Mode) :
    (ui.withNameMode nm md).nmodes = ui.nmodes := by
  cases ui with
  | mk o op n m c => cases c <;> rfl

theorem parseF_isSome : ∀ (fuel : Nat) (m : Mode) (args : List String),
    args.length < fuel → (parseF fuel m args).isSome = true := by
  intro fuel
  induction fuel with
  | zero => intro m args h; omega
  | succ fuel ih =>
    intro m args hlen
    simp only [parseF]
    split
    next e htok => simp
    next occs htok =>
      split
      next e hagg => simp
      next opts hagg =>
        split
        next e hheu => simp
        next operands hheu => simp
        next operands name rest hheu =>
          split
          next hgm => simp
          next cm hgm =>
            have hlen2 : rest.length < fuel := by
              have := getheuroperands_nested_length m args operands (name :: rest) hheu
              simp at this
              omega
            have hs := ih cm rest hlen2
            split
            next hpf => rw [hpf] at hs; simp at hs
            next e hpf => simp
            next cui hpf => simp

theorem parseF_mono : ∀ (fuel fuel' : Nat), fuel ≤ fuel' →
    ∀ (m : Mode) (args : List String) (r : Except Err ParsedUI),
      parseF fuel m args = Option.some r → parseF fuel' m args = Option.some r := by
  intro fuel
  induction fuel with
  | zero => intro fuel' h m args r hr; simp [parseF] at hr
  | succ fuel ih =>
    intro fuel' hle m args r hr
    cases fuel' with
    | zero => omega
    | succ fuel'' =>
      cases htok : tokenize m (getinput m args) with
      | error e => simp only [parseF, htok] at hr ⊢; exact hr
      | ok occs =>
        cases hagg : aggregate m occs [] with
        | error e => simp only [parseF, htok, hagg] at hr ⊢; exact hr
        | ok opts =>
          cases hheu : getheuroperands m args with
          | error e => simp only [parseF, htok, hagg, hheu] at hr ⊢; exact hr
          | ok pr =>
            obtain ⟨operands, ns⟩ := pr
            cases ns with
            | nil => simp only [parseF, htok, hagg, hheu] at hr ⊢; exact hr
            | cons name rest =>
              cases hgm : m.getmode name with
              | none => simp only [parseF, htok, hagg, hheu, hgm] at hr ⊢; exact hr
              | some cm =>
                cases hpf : parseF fuel cm rest with
                | none =>
                  simp only [parseF, htok, hagg, hheu, hgm, hpf] at hr
                  exact absurd hr (by simp)
                | some cr =>
                  have hrec := ih fuel'' (by omega) cm rest cr hpf
                  simp only [parseF, htok, hagg, hheu, hgm, hpf, hrec] at hr ⊢
                  exact hr

theorem parseF_nmodes : ∀ (fuel : Nat) (m : Mode) (args : List String) (ui : ParsedUI),
    parseF fuel m args = Option.some (Except.ok ui) → ui.nmodes ≤ args.length := by
  intro fuel
  induction fuel with
  | zero => intro m args ui h; simp [parseF] at h
  | succ fuel ih =>
    intro m args ui h
    cases htok : tokenize m (getinput m args) with
    | error e => simp only [parseF, htok] at h; simp at h
    | ok occs =>
      cases hagg : aggregate m occs [] with
      | error e => simp only [parseF, htok, hagg] at h; simp at h
      | ok opts =>
        cases hheu : getheuroperands m args with
        | error e => simp only [parseF, htok, hagg, hheu] at h; simp at h
        | ok pr =>
          obtain ⟨operands, ns⟩ := pr
          cases ns with
          | nil =>
            simp only [parseF, htok, hagg, hheu, Option.some.injEq] at h
            have hui : ParsedUI.mk opts operands "" m Option.none = ui := by
              cases h with
              | refl => rfl
            rw [← hui]
            simp [ParsedUI.nmodes]
          | cons name rest =>
            cases hgm : m.getmode name with
            | none => simp only [parseF, htok, hagg, hheu, hgm] at h; simp at h
            | some cm =>
              cases hpf : parseF fuel cm rest with
              | none => simp only [parseF, htok, hagg, hheu, hgm, hpf] at h; simp at h
              | some cr =>
                cases cr with
                | error e => simp only [parseF, htok, hagg, hheu, hgm, hpf] at h; simp at h
                | ok cui =>
                  simp only [parseF, htok, hagg, hheu, hgm, hpf, Option.some.injEq] at h
                  have hrec := ih cm rest cui hpf
                  have hlen : rest.length + 1 ≤ args.length := by
                    have := getheuroperands_nested_length m args operands (name :: rest) hheu
                    simp at this
                    omega
                  have hui : ParsedUI.mk opts operands "" m
                      (Option.some (cui.withNameMode name cm)) = ui := by
                    cases h with
                    | refl => rfl
                  rw [← hui]
                  simp only [ParsedUI.nmodes, nmodes_withNameMode]
                  omega

theorem parse_eq_parseF (m : Mode) (args : List String) :
    parseF (args.length + 1) m args = Option.some (parse m args) := by
  have h := parseF_isSome (args.length + 1) m args (Nat.lt_succ_self _)
  cases hpf : parseF (args.length + 1) m args with
  | none => rw [hpf] at h; simp at h
  | some r => simp [parse, hpf]

theorem parse_nmodes (m : Mode) (args : List String) (ui : ParsedUI)
    (h : parse m args = Except.ok ui) : ui.nmodes ≤ args.length := by
  have heq := parse_eq_parseF m args
  rw [h] at heq
  exact parseF_nmodes _ m args ui heq

/-!  Helper lemmas about the global-option propagation of finalise. -/

theorem pushOne_preserve (md : Mode) (copts : List (String × PyVal)) (k2 : String)
    (v2 : PyVal) (c2 : List (String × PyVal)) (k : String)
    (h : pushOne md copts k2 v2 = Except.ok c2) (hne : k2 ≠ k) :
    lookupA c2 k = lookupA copts k := by
  simp only [pushOne] at h
  cases hg : findGlobal md k2 with
  | none =>
    simp only [hg] at h
    cases h
    rfl
  | some o =>
    simp only [hg] at h
    cases hl : lookupA copts k2 with
    | none =>
      simp only [hl] at h
      cases h
      exact lookupA_insertA_ne copts k2 k v2 (fun he => hne he.symm)
    | some cv =>
      simp only [hl] at h
      by_cases hb : (o.plural && o.params.isEmpty) = true
      · simp only [hb, if_true] at h
        cases hadd : pyAdd cv v2 with
        | error e => simp only [hadd] at h; simp at h
        | ok nv =>
          simp only [hadd] at h
          cases h
          exact lookupA_insertA_ne copts k2 k nv (fun he => hne he.symm)
      · simp only [hb, if_false] at h
        cases h
        rfl

theorem pushAll_preserve (md : Mode) :
    ∀ (items copts c2 : List (String × PyVal)) (k : String),
      (∀ kv ∈ items, kv.1 ≠ k) → pushAll md items copts = Except.ok c2 →
      lookupA c2 k = lookupA copts k := by
  intro items
  induction items with
  | nil =>
    intro copts c2 k _ h
    cases h
    rfl
  | cons kv t ih =>
    intro copts c2 k hk h
    obtain ⟨k1, v1⟩ := kv
    simp only [pushAll] at h
    cases hp : pushOne md copts k1 v1 with
    | error e => simp only [hp] at h; simp at h
    | ok copts1 =>
      simp only [hp] at h
      have h1 := pushOne_preserve md copts k1 v1 copts1 k hp
        (hk (k1, v1) (List.mem_cons_self _ _))
      have h2 := ih copts1 c2 k (fun kv hkv => hk kv (List.mem_cons_of_mem _ hkv)) h
      rw [h2, h1]

/-- A parent entry of a globally scoped option absent from the child map is
copied into the child map by the finalise push loop. -/
theorem pushAll_copies (md : Mode) :
    ∀ (items copts c2 : List (String × PyVal)) (k : String) (v : PyVal) (o : OptionDescr),
      (keysA items).Nodup → (k, v) ∈ items →
      findGlobal md k = Option.some o → lookupA copts k = Option.none →
      pushAll md items copts = Except.ok c2 →
      lookupA c2 k = Option.some v := by
  intro items
  induction items with
  | nil => intro copts c2 k v o _ hmem; cases hmem
  | cons kv t ih =>
    intro copts c2 k v o hnd hmem hg hnone h
    obtain ⟨k1, v1⟩ := kv
    have hnd2 : (keysA t).Nodup := by
      simp only [keysA, List.map_cons] at hnd
      exact hnd.of_cons
    have hk1nin : k1 ∉ keysA t := by
      simp only [keysA, List.map_cons] at hnd
      exact (List.nodup_cons.mp hnd).1
    simp only [pushAll] at h
    by_cases hk1 : k1 = k
    · subst hk1
      have hv1 : v1 = v := by
        cases hmem with
        | head => rfl
        | tail _ hm =>
          exact absurd (List.mem_map_of_mem Prod.fst hm) hk1nin
      subst hv1
      simp only [pushOne, hg, hnone] at h
      have hpres := pushAll_preserve md t (insertA copts k1 v1) c2 k1
        (fun kv hkv he => hk1nin (he ▸ List.mem_map_of_mem Prod.fst hkv)) h
      rw [hpres, lookupA_insertA_self]
    · have hmem2 : (k, v) ∈ t := by
        cases hmem with
        | head => exact absurd rfl hk1
        | tail _ hm => exact hm
      cases hp : pushOne md copts k1 v1 with
      | error e => simp only [hp] at h; simp at h
      | ok copts1 =>
        simp only [hp] at h
        have hnone1 : lookupA copts1 k = Option.none := by
          rw [pushOne_preserve md copts k1 v1 copts1 k hp hk1]
          exact hnone
        exact ih copts1 c2 k v o hnd2 hmem2 hg hnone1 h

/-- A parent count entry of a repeatable zero-arity globally scoped option is
added onto the child's count by the finalise push loop. -/
theorem pushAll_addcount (md : Mode) :
    ∀ (items copts c2 : List (String × PyVal)) (k : String) (M K : Int) (o : OptionDescr),
      (keysA items).Nodup → (k, PyVal.int M) ∈ items →
      findGlobal md k = Option.some o → o.plural = true → o.params = [] →
      lookupA copts k = Option.some (PyVal.int K) →
      pushAll md items copts = Except.ok c2 →
      lookupA c2 k = Option.some (PyVal.int (K + M)) := by
  intro items
  induction items with
  | nil => intro copts c2 k M K o _ hmem; cases hmem
  | cons kv t ih =>
    intro copts c2 k M K o hnd hmem hg hpl hpar hchild h
    obtain ⟨k1, v1⟩ := kv
    have hnd2 : (keysA t).Nodup := by
      simp only [keysA, List.map_cons] at hnd
      exact hnd.of_cons
    have hk1nin : k1 ∉ keysA t := by
      simp only [keysA, List.map_cons] at hnd
      exact (List.nodup_cons.mp hnd).1
    simp only [pushAll] at h
    by_cases hk1 : k1 = k
    · subst hk1
      have hv1 : v1 = PyVal.int M := by
        cases hmem with
        | head => rfl
        | tail _ hm =>
          exact absurd (List.mem_map_of_mem Prod.fst hm) hk1nin
      subst hv1
      have hguard : (o.plural && o.params.isEmpty) = true := by
        rw [hpl, hpar]
        rfl
      simp only [pushOne, hg, hchild, hguard, if_true, pyAdd] at h
      have hpres := pushAll_preserve md t (insertA copts k1 (PyVal.int (K + M))) c2 k1
        (fun kv hkv he => hk1nin (he ▸ List.mem_map_of_mem Prod.fst hkv)) h
      rw [hpres, lookupA_insertA_self]
    · have hmem2 : (k, PyVal.int M) ∈ t := by
        cases hmem with
        | head => exact absurd rfl hk1
        | tail _ hm => exact hm
      cases hp : pushOne md copts k1 v1 with
      | error e => simp only [hp] at h; simp at h
      | ok copts1 =>
        simp only [hp] at h
        have hsome1 : lookupA copts1 k = Option.some (PyVal.int K) := by
          rw [pushOne_preserve md copts k1 v1 copts1 k hp hk1]
          exact hchild
        exact ih copts1 c2 k M K o hnd2 hmem2 hg hpl hpar hsome1 h

/-- Shape of a successful finalise on a two-level chain head: the parent node
is unchanged and the child node carries the pushed option map. -/
theorem finalise_child (popts : List (String × PyVal)) (pops : List String)
    (pnm : String) (pmode : Mode) (copts : List (String × PyVal))
    (cops : List String) (cnm : String) (cmode : Mode) (cchild : Option ParsedUI)
    (p2 : ParsedUI)
    (h : ParsedUI.finalise (.mk popts pops pnm pmode
        (Option.some (.mk copts cops cnm cmode cchild))) = Except.ok p2) :
    ∃ copts2 c2, pushAll pmode popts copts = Except.ok copts2 ∧
      p2 = .mk popts pops pnm pmode (Option.some c2) ∧
      c2.optionsA = copts2 ∧ c2.operandsL = cops ∧ c2.modeOf = cmode := by
  cases cchild with
  | none =>
    simp only [ParsedUI.finalise, finaliseInto] at h
    cases hpush : pushAll pmode popts copts with
    | error e => simp only [hpush] at h; simp at h
    | ok copts2 =>
      simp only [hpush, Except.ok.injEq] at h
      refine ⟨copts2, .mk copts2 cops cnm cmode Option.none, rfl, ?_, rfl, rfl, rfl⟩
      exact h.symm
  | some cc =>
    simp only [ParsedUI.finalise, finaliseInto] at h
    cases hpush : pushAll pmode popts copts with
    | error e => simp only [hpush] at h; simp at h
    | ok copts2 =>
      simp only [hpush] at h
      cases hrec : finaliseInto cmode copts2 cc with
      | error e => simp only [hrec] at h; simp at h
      | ok cc2 =>
        simp only [hrec, Except.ok.injEq] at h
        refine ⟨copts2, .mk copts2 cops cnm cmode (Option.some cc2), rfl, ?_, rfl, rfl, rfl⟩
        exact h.symm

/-- ParsedUI.get depends only on the descriptor the mode resolves the key to
and on the stored value. -/
theorem get_congr (ui1 ui2 : ParsedUI) (k1 k2 : String) (o : OptionDescr)
    (v : PyVal) (t : Bool)
    (h1o : ui1.modeOf.getopt k1 = Option.some o)
    (h2o : ui2.modeOf.getopt k2 = Option.some o)
    (h1v : lookupA ui1.optionsA k1 = Option.some v)
    (h2v : lookupA ui2.optionsA k2 = Option.some v) :
    ui1.get k1 t = ui2.get k2 t := by
  simp only [ParsedUI.get, h1o, h2o, h1v, h2v]

/-- Shape of a successful parse: the root node carries the parsed mode and
the options dict aggregated from the tokenized input window. -/
theorem parse_ok_parts (m : Mode) (args : List String) (ui : ParsedUI)
    (h : parse m args = Except.ok ui) :
    ui.modeOf = m ∧ ∃ occs, tokenize m (getinput m args) = Except.ok occs ∧
      aggregate m occs [] = Except.ok ui.optionsA := by
  have heq := parse_eq_parseF m args
  rw [h] at heq
  cases htok : tokenize m (getinput m args) with
  | error e => simp only [parseF, htok] at heq; simp at heq
  | ok occs =>
    cases hagg : aggregate m occs [] with
    | error e => simp only [parseF, htok, hagg] at heq; simp at heq
    | ok opts =>
      cases hheu : getheuroperands m args with
      | error e => simp only [parseF, htok, hagg, hheu] at heq; simp at heq
      | ok pr =>
        obtain ⟨operands, ns⟩ := pr
        cases ns with
        | nil =>
          simp only [parseF, htok, hagg, hheu, Option.some.injEq] at heq
          have hui : ParsedUI.mk opts operands "" m Option.none = ui := by
            cases heq with
            | refl => rfl
          rw [← hui]
          exact ⟨rfl, occs, rfl, hagg⟩
        | cons name rest =>
          cases hgm : m.getmode name with
          | none => simp only [parseF, htok, hagg, hheu, hgm] at heq; simp at heq
          | some cm =>
            cases hpf : parseF args.length cm rest with
            | none => simp only [parseF, htok, hagg, hheu, hgm, hpf] at heq; simp at heq
            | some cr =>
              cases cr with
              | error e =>
                simp only [parseF, htok, hagg, hheu, hgm, hpf] at heq; simp at heq
              | ok cui =>
                simp only [parseF, htok, hagg, hheu, hgm, hpf, Option.some.injEq] at heq
                have hui : ParsedUI.mk opts operands "" m
                    (Option.some (cui.withNameMode name cm)) = ui := by
                  cases heq with
                  | refl => rfl
                rw [← hui]
                exact ⟨rfl, occs, rfl, hagg⟩

/-!  Helper lemmas about occurrence aggregation for aliased options. -/

theorem aggStep_eq (m : Mode) (o : OptionDescr) (k : String)
    (acc : List (String × PyVal)) (v : Option (List PyVal))
    (hg : m.getopt k = Option.some o) :
    aggStep m acc (k, v) =
      match aggVal o (lookupA acc k) v with
      | Except.error e => Except.error e
      | Except.ok nv => Except.ok (insertA acc k nv) := by
  simp only [aggStep, aggVal, hg]
  by_cases hb1 : (o.plural && !o.params.isEmpty) = true
  · simp only [hb1, if_true]
    cases hcur : (lookupA acc k).getD (PyVal.list []) <;> rfl
  · simp only [hb1, if_false]
    by_cases hb2 : (o.plural && o.params.isEmpty) = true
    · simp only [hb2, if_true]
      cases hcur : (lookupA acc k).getD (PyVal.int 0) <;> rfl
    · simp only [hb2, if_false]
      rfl

theorem aggStep_preserve (m : Mode) (acc acc2 : List (String × PyVal))
    (k1 : String) (v1 : Option (List PyVal)) (k : String)
    (h : aggStep m acc (k1, v1) = Except.ok acc2) (hne : k1 ≠ k) :
    lookupA acc2 k = lookupA acc k := by
  simp only [aggStep] at h
  cases hg : m.getopt k1 with
  | none => simp only [hg] at h; simp at h
  | some o =>
    simp only [hg] at h
    by_cases hb1 : (o.plural && !o.params.isEmpty) = true
    · simp only [hb1, if_true] at h
      cases hcur : (lookupA acc k1).getD (PyVal.list []) with
      | list vs =>
        simp only [hcur, Except.ok.injEq] at h
        rw [← h]
        exact lookupA_insertA_ne acc k1 k _ (fun he => hne he.symm)
      | none => simp only [hcur] at h; simp at h
      | int n => simp only [hcur] at h; simp at h
      | str a => simp only [hcur] at h; simp at h
      | tuple vs => simp only [hcur] at h; simp at h
    · rw [if_neg hb1] at h
      by_cases hb2 : (o.plural && o.params.isEmpty) = true
      · simp only [hb2, if_true] at h
        cases hcur : (lookupA acc k1).getD (PyVal.int 0) with
        | int n =>
          simp only [hcur, Except.ok.injEq] at h
          rw [← h]
          exact lookupA_insertA_ne acc k1 k _ (fun he => hne he.symm)
        | none => simp only [hcur] at h; simp at h
        | str a => simp only [hcur] at h; simp at h
        | tuple vs => simp only [hcur] at h; simp at h
        | list vs => simp only [hcur] at h; simp at h
      · rw [if_neg hb2] at h
        simp only [Except.ok.injEq] at h
        rw [← h]
        exact lookupA_insertA_ne acc k1 k _ (fun he => hne he.symm)

theorem aggregate_paired (m : Mode) (o : OptionDescr) (a b : String) (hab : a ≠ b)
    (hga : m.getopt a = Option.some o) (hgb : m.getopt b = Option.some o)
    (occs : List Occ) (hp : Paired a b occs) :
    ∀ (acc res : List (String × PyVal)), lookupA acc a = lookupA acc b →
      aggregate m occs acc = Except.ok res →
      lookupA res a = lookupA res b := by
  induction hp with
  | nil =>
    intro acc res hinv hagg
    simp only [aggregate, Except.ok.injEq] at hagg
    rw [← hagg]
    exact hinv
  | @other k v t hka hkb hpt ih =>
    intro acc res hinv hagg
    simp only [aggregate] at hagg
    cases hst : aggStep m acc (k, v) with
    | error e => simp only [hst] at hagg; simp at hagg
    | ok acc1 =>
      simp only [hst] at hagg
      have hinv1 : lookupA acc1 a = lookupA acc1 b := by
        rw [aggStep_preserve m acc acc1 k v a hst hka,
          aggStep_preserve m acc acc1 k v b hst hkb]
        exact hinv
      exact ih acc1 res hinv1 hagg
  | @pairAB v t hpt ih =>
    intro acc res hinv hagg
    simp only [aggregate] at hagg
    rw [aggStep_eq m o a acc v hga] at hagg
    cases hav : aggVal o (lookupA acc a) v with
    | error e => simp only [hav] at hagg; simp at hagg
    | ok nv =>
      simp only [hav] at hagg
      rw [aggStep_eq m o b (insertA acc a nv) v hgb] at hagg
      have hlb : lookupA (insertA acc a nv) b = lookupA acc a := by
        rw [lookupA_insertA_ne acc a b nv (fun he => hab he.symm)]
        exact hinv.symm
      rw [hlb, hav] at hagg
      have hinv2 : lookupA (insertA (insertA acc a nv) b nv) a =
          lookupA (insertA (insertA acc a nv) b nv) b := by
        rw [lookupA_insertA_ne (insertA acc a nv) b a nv hab,
          lookupA_insertA_self, lookupA_insertA_self]
      exact ih (insertA (insertA acc a nv) b nv) res hinv2 hagg
  | @pairBA v t hpt ih =>
    intro acc res hinv hagg
    simp only [aggregate] at hagg
    rw [aggStep_eq m o b acc v hgb] at hagg
    cases hav : aggVal o (lookupA acc b) v with
    | error e => simp only [hav] at hagg; simp at hagg
    | ok nv =>
      simp only [hav] at hagg
      rw [aggStep_eq m o a (insertA acc b nv) v hga] at hagg
      have hla : lookupA (insertA acc b nv) a = lookupA acc b := by
        rw [lookupA_insertA_ne acc b a nv hab]
        exact hinv
      rw [hla, hav] at hagg
      have hinv2 : lookupA (insertA (insertA acc b nv) a nv) a =
          lookupA (insertA (insertA acc b nv) a nv) b := by
        rw [lookupA_insertA_ne (insertA acc b nv) a b nv (fun he => hab he.symm),
          lookupA_insertA_self, lookupA_insertA_self]
      exact ih (insertA (insertA acc b nv) a nv) res hinv2 hagg

/-!  Helper lemmas about option lookup and alias expansion for an option
declared with an alias, under the mode well-formedness assumption that no
other declared descriptor matches either of its two spellings. -/

theorem getopt_eq_of_unique (m : Mode) (o : OptionDescr) (a : String)
    (hoin : o ∈ m.allOpts) (hp : o.matchName a = true)
    (hA : ∀ x ∈ m.allOpts, x.matchName a = true → x = o) :
    m.getopt a = Option.some o :=
  find?_eq_some_of_unique _ _ o hoin hp hA

theorem aliasOf_of_name (m : Mode) (o : OptionDescr) (a b : String)
    (hg : m.getopt a = Option.some o) (hn : o.name = a)
    (hal : o.aliasName = Option.some b) : m.aliasOf a = b := by
  simp [Mode.aliasOf, hg, hn, hal]

theorem aliasOf_of_alias (m : Mode) (o : OptionDescr) (a b : String)
    (hg : m.getopt b = Option.some o) (hn : o.name = a) (hab : a ≠ b) :
    m.aliasOf b = a := by
  have hne : (b == o.name) = false := by
    rw [hn]
    simp only [beq_eq_false_iff_ne]
    exact fun he => hab he.symm
  simp only [Mode.aliasOf, hg, hne, Bool.false_eq_true, if_false]
  exact hn

/-- Any other accepted token expands to spellings distinct from both names
of the aliased option. -/
theorem aliasOf_not_ab (m : Mode) (o o2 : OptionDescr) (a b x : String)
    (hn : o.name = a) (hal : o.aliasName = Option.some b) (hab : a ≠ b)
    (hA : ∀ y ∈ m.allOpts, y.matchName a = true → y = o)
    (hB : ∀ y ∈ m.allOpts, y.matchName b = true → y = o)
    (hxa : x ≠ a) (hxb : x ≠ b)
    (hg : m.getopt x = Option.some o2) :
    m.aliasOf x ≠ a ∧ m.aliasOf x ≠ b := by
  have hg2 : m.allOpts.find? (fun y => y.matchName x) = Option.some o2 := hg
  have ho2in : o2 ∈ m.allOpts := List.mem_of_find?_eq_some hg2
  have ho2m0 := List.find?_some hg2
  have ho2m : o2.matchName x = true := ho2m0
  simp only [Mode.aliasOf, hg]
  by_cases hxn : (x == o2.name) = true
  · rw [if_pos hxn]
    have hxname : x = o2.name := by simpa using hxn
    cases hano : o2.aliasName with
    | none =>
      simp only [Option.getD]
      exact ⟨hxa, hxb⟩
    | some c =>
      simp only [Option.getD]
      constructor
      · intro hca
        subst hca
        have hm2 : o2.matchName c = true := by
          simp [OptionDescr.matchName, hano]
        have ho2o : o2 = o := hA o2 ho2in hm2
        exact hxa (by rw [hxname, ho2o, hn])
      · intro hcb
        subst hcb
        have hm2 : o2.matchName c = true := by
          simp [OptionDescr.matchName, hano]
        have ho2o : o2 = o := hB o2 ho2in hm2
        exact hxa (by rw [hxname, ho2o, hn])
  · rw [if_neg hxn]
    have hxnf : (x == o2.name) = false := by
      simpa using hxn
    constructor
    · intro hna2
      have hm2 : o2.matchName a = true := by
        simp [OptionDescr.matchName, hna2]
      have ho2o : o2 = o := hA o2 ho2in hm2
      have hmx : (x == o2.name || o2.aliasName == Option.some x) = true := ho2m
      rw [hxnf, ho2o, hal] at hmx
      simp only [Bool.false_or] at hmx
      have hxb2 : b = x := by simpa using hmx
      exact hxb hxb2.symm
    · intro hnb2
      have hm2 : o2.matchName b = true := by
        simp [OptionDescr.matchName, hnb2]
      have ho2o : o2 = o := hB o2 ho2in hm2
      rw [ho2o, hn] at hnb2
      exact hab hnb2

/-- The occurrence list produced by the tokenizer records an aliased option
pairwise under both spellings, and no other token pollutes those names. -/
theorem tokenizeGo_paired (m : Mode) (o : OptionDescr) (a b : String)
    (hn : o.name = a) (hal : o.aliasName = Option.some b) (hab : a ≠ b)
    (hoin : o ∈ m.allOpts)
    (hA : ∀ y ∈ m.allOpts, y.matchName a = true → y = o)
    (hB : ∀ y ∈ m.allOpts, y.matchName b = true → y = o) :
    ∀ (fuel : Nat) (l : List String) (occs : List Occ),
      tokenizeGo m fuel l = Except.ok occs → Paired a b occs := by
  have hga : m.getopt a = Option.some o :=
    getopt_eq_of_unique m o a hoin (by simp [OptionDescr.matchName, hn]) hA
  have hgb : m.getopt b = Option.some o :=
    getopt_eq_of_unique m o b hoin (by simp [OptionDescr.matchName, hal]) hB
  have haOfa : m.aliasOf a = b := aliasOf_of_name m o a b hga hn hal
  have haOfb : m.aliasOf b = a := aliasOf_of_alias m o a b hgb hn hab
  have hba : b ≠ a := fun he => hab he.symm
  intro fuel
  induction fuel with
  | zero =>
    intro l occs h
    simp only [tokenizeGo, Except.ok.injEq] at h
    rw [← h]
    exact Paired.nil
  | succ fuel ih =>
    intro l occs h
    cases l with
    | nil =>
      simp only [tokenizeGo, Except.ok.injEq] at h
      rw [← h]
      exact Paired.nil
    | cons item rest =>
      simp only [tokenizeGo] at h
      by_cases hc1 : (lookslikeopt item && m.accepts item && (m.params item).isEmpty) = true
      · rw [if_pos hc1] at h
        cases hrec : tokenizeGo m fuel rest with
        | error e => simp only [hrec] at h; simp at h
        | ok os =>
          simp only [hrec, Except.ok.injEq] at h
          have hos := ih rest os hrec
          rw [← h]
          by_cases hia : item = a
          · subst hia
            rw [haOfa, if_pos hba]
            exact Paired.pairAB hos
          · by_cases hib : item = b
            · subst hib
              rw [haOfb, if_pos hab]
              exact Paired.pairBA hos
            · have hacc : m.accepts item = true := by
                simp only [Bool.and_eq_true] at hc1
                exact hc1.1.2
              obtain ⟨o2, hg2⟩ : ∃ o2, m.getopt item = Option.some o2 := by
                simp only [Mode.accepts] at hacc
                exact Option.isSome_iff_exists.mp hacc
              have hnot := aliasOf_not_ab m o o2 a b item hn hal hab hA hB hia hib hg2
              by_cases hne : m.aliasOf item ≠ item
              · rw [if_pos hne]
                exact Paired.other hia hib (Paired.other hnot.1 hnot.2 hos)
              · rw [if_neg hne]
                exact Paired.other hia hib hos
      · rw [if_neg hc1] at h
        by_cases hc2 : (lookslikeopt item && m.accepts item && !(m.params item).isEmpty) = true
        · rw [if_pos hc2] at h
          cases hco : coerce (m.params item) (rest.take (m.params item).length) with
          | error e => simp only [hco] at h; simp at h
          | ok vals =>
            simp only [hco] at h
            cases hrec : tokenizeGo m fuel (rest.drop (m.params item).length) with
            | error e => simp only [hrec] at h; simp at h
            | ok os =>
              simp only [hrec, Except.ok.injEq] at h
              have hos := ih _ os hrec
              rw [← h]
              by_cases hia : item = a
              · subst hia
                rw [haOfa, if_pos hba]
                exact Paired.pairAB hos
              · by_cases hib : item = b
                · subst hib
                  rw [haOfb, if_pos hab]
                  exact Paired.pairBA hos
                · have hacc : m.accepts item = true := by
                    simp only [Bool.and_eq_true] at hc2
                    exact hc2.1.2
                  obtain ⟨o2, hg2⟩ : ∃ o2, m.getopt item = Option.some o2 := by
                    simp only [Mode.accepts] at hacc
                    exact Option.isSome_iff_exists.mp hacc
                  have hnot := aliasOf_not_ab m o o2 a b item hn hal hab hA hB hia hib hg2
                  by_cases hne : m.aliasOf item ≠ item
                  · rw [if_pos hne]
                    exact Paired.other hia hib (Paired.other hnot.1 hnot.2 hos)
                  · rw [if_neg hne]
                    exact Paired.other hia hib hos
        · rw [if_neg hc2] at h
          simp only [Except.ok.injEq] at h
          rw [← h]
          exact Paired.nil


/-!  Helper lemmas for the aggregation and coercion of single-token
windows. -/

theorem aggVal_none_ok (o : OptionDescr) (v : Option (List PyVal)) :
    ∃ nv, aggVal o Option.none v = Except.ok nv := by
  simp only [aggVal, Option.getD]
  by_cases h1 : (o.plural && !o.params.isEmpty) = true
  · rw [if_pos h1]
    exact ⟨_, rfl⟩
  · rw [if_neg h1]
    by_cases h2 : (o.plural && o.params.isEmpty) = true
    · rw [if_pos h2]
      exact ⟨_, rfl⟩
    · rw [if_neg h2]
      exact ⟨_, rfl⟩

theorem aggStep_none_ok (m : Mode) (o : OptionDescr) (k : String)
    (acc : List (String × PyVal)) (v : Option (List PyVal))
    (hg : m.getopt k = Option.some o) (hcur : lookupA acc k = Option.none) :
    ∃ nv, aggStep m acc (k, v) = Except.ok (insertA acc k nv) := by
  rw [aggStep_eq m o k acc v hg, hcur]
  obtain ⟨nv, hnv⟩ := aggVal_none_ok o v
  refine ⟨nv, ?_⟩
  rw [hnv]

theorem getopt_aliasOf_isSome (m : Mode) (o : OptionDescr) (f : String)
    (hgo : m.getopt f = Option.some o) (hne : m.aliasOf f ≠ f) :
    ∃ o2, m.getopt (m.aliasOf f) = Option.some o2 := by
  have hg2 : m.allOpts.find? (fun y => y.matchName f) = Option.some o := hgo
  have hoin : o ∈ m.allOpts := List.mem_of_find?_eq_some hg2
  simp only [Mode.aliasOf, hgo] at hne ⊢
  by_cases hfn : (f == o.name) = true
  · rw [if_pos hfn] at hne ⊢
    cases hano : o.aliasName with
    | none =>
      rw [hano] at hne
      simp at hne
    | some g =>
      simp only [Option.getD] at hne ⊢
      have hmo : o.matchName g = true := by
        simp [OptionDescr.matchName, hano]
      have hsome : (m.allOpts.find? (fun y => y.matchName g)).isSome := by
        rw [List.find?_isSome]
        exact ⟨o, hoin, hmo⟩
      exact Option.isSome_iff_exists.mp hsome
  · rw [if_neg hfn] at hne ⊢
    have hmo : o.matchName o.name = true := by
      simp [OptionDescr.matchName]
    have hsome : (m.allOpts.find? (fun y => y.matchName o.name)).isSome := by
      rw [List.find?_isSome]
      exact ⟨o, hoin, hmo⟩
    exact Option.isSome_iff_exists.mp hsome


theorem llo_ne_sep (f : String) (hllo : lookslikeopt f = true) : f ≠ "--" := by
  intro he
  rw [he] at hllo
  simp [lookslikeopt] at hllo

/-!  The claims. -/

/-- C1 (counterexample): on the input of the claim, parse does not produce a
root result with operand file1 and a go child; it aborts with a KeyError on
file1 (the heuristic retracted file1 into the nested input, and file1 names
no child mode). -/
theorem c1_counterexample :
    parse rootMode ["-x", "file1", "-y"] = Except.error (Err.keyError "file1") := by
  rfl

/-- C1 (amended): for the mode root with zero-arity option -x and child mode
go accepting -y, parsing [-x, file1, -y] retracts file1 into the nested
input - the splitter returns operands [] and nested input [file1, -y] - and
parse then fails with a KeyError on file1 (a fatal unknown-mode error),
because the first nested token must name a child mode. -/
theorem c1_theorem :
    getheuroperands rootMode ["-x", "file1", "-y"] = Except.ok ([], ["file1", "-y"]) ∧
    parse rootMode ["-x", "file1", "-y"] = Except.error (Err.keyError "file1") := by
  exact ⟨rfl, rfl⟩

/-- C2 (counterexample): the token -z looks like an option and is declared
by no mode at all, yet parse does not fail - it returns an ordinary result
with empty options and operands, silently dropping the token. -/
theorem c2_counterexample :
    parse rootMode ["-z"] = Except.ok (.mk [] [] "" rootMode Option.none) := by
  rfl

/-- C2 (amended): an option-looking token that the current mode does not
declare never raises an unrecognized-option error: at the head of the input
it is absorbed into the input window and silently dropped; in the operand
region it becomes an ordinary operand when no child mode accepts it; and
when a child mode does accept it, the heuristic shifts the preceding operand
into the nested input, which then fails with a KeyError on that operand
(an unknown-mode error), still not an unrecognized-option error. -/
theorem c2_theorem :
    parse rootMode ["--nope"] = Except.ok (.mk [] [] "" rootMode Option.none) ∧
    parse rootMode ["file1", "--nope"] =
      Except.ok (.mk [] ["file1", "--nope"] "" rootMode Option.none) ∧
    parse rootMode ["file1", "-y"] = Except.error (Err.keyError "file1") := by
  exact ⟨rfl, rfl, rfl⟩

/-- C3: for a globally scoped option (first global match o of the parent's
mode) holding value v at the parent and absent from the child map, a
successful finalise copies v down, and the child's get returns the identical
value as the parent's get, provided both modes resolve the name to the same
descriptor od (as the propagated declarations of RedCLAP do) and the
parent's map has no duplicate keys (a dict invariant). -/
theorem c3_theorem (popts : List (String × PyVal)) (pops : List String)
    (pnm : String) (pmode : Mode) (copts : List (String × PyVal))
    (cops : List String) (cnm : String) (cmode : Mode)
    (cchild : Option ParsedUI) (p2 : ParsedUI) (k : String) (v : PyVal)
    (o od : OptionDescr)
    (hnd : (keysA popts).Nodup)
    (hpar : lookupA popts k = Option.some v)
    (hchild : lookupA copts k = Option.none)
    (hglob : findGlobal pmode k = Option.some o)
    (hgp : pmode.getopt k = Option.some od)
    (hgc : cmode.getopt k = Option.some od)
    (hfin : ParsedUI.finalise (.mk popts pops pnm pmode
        (Option.some (.mk copts cops cnm cmode cchild))) = Except.ok p2) :
    ∃ c2, p2.childUI = Option.some c2 ∧ c2.get k true = p2.get k true := by
  obtain ⟨copts2, c2, hpush, hp2, hcopts, hcops, hcmode⟩ :=
    finalise_child popts pops pnm pmode copts cops cnm cmode cchild p2 hfin
  have hmem : (k, v) ∈ popts := lookupA_mem popts k v hpar
  have hlk2 : lookupA copts2 k = Option.some v :=
    pushAll_copies pmode popts copts copts2 k v o hnd hmem hglob hchild hpush
  refine ⟨c2, ?_, ?_⟩
  · rw [hp2]
    rfl
  · exact get_congr c2 p2 k k od v true
      (by rw [hcmode]; exact hgc)
      (by rw [hp2]; exact hgp)
      (by rw [hcopts]; exact hlk2)
      (by rw [hp2]; exact hpar)

/-- C3 (witness): a concrete two-level chain with the global --output set at
the parent only; after finalise the child's get agrees with the parent's. -/
theorem c3_witness :
    ∃ c2, ParsedUI.childUI uiC3r = Option.some c2 ∧
      c2.get "--output" true = uiC3r.get "--output" true :=
  c3_theorem [("--output", valOut)] [] "" topMode [] [] "sub" subMode
    Option.none uiC3r "--output" valOut optG optG
    (by decide) rfl rfl rfl rfl rfl rfl

/-- C4: for a globally scoped, repeatable, zero-arity option (first global
match o of the parent's mode) recorded with count M at the parent and count
K at the child, a successful finalise leaves the child's entry at count
M + K (the code computes K + M; the keys of the parent map are unique, a
dict invariant). -/
theorem c4_theorem (popts : List (String × PyVal)) (pops : List String)
    (pnm : String) (pmode : Mode) (copts : List (String × PyVal))
    (cops : List String) (cnm : String) (cmode : Mode)
    (cchild : Option ParsedUI) (p2 : ParsedUI) (k : String) (M K : Int)
    (o : OptionDescr)
    (hnd : (keysA popts).Nodup)
    (hpar : lookupA popts k = Option.some (PyVal.int M))
    (hchild : lookupA copts k = Option.some (PyVal.int K))
    (hglob : findGlobal pmode k = Option.some o)
    (hpl : o.plural = true) (hparams : o.params = [])
    (hfin : ParsedUI.finalise (.mk popts pops pnm pmode
        (Option.some (.mk copts cops cnm cmode cchild))) = Except.ok p2) :
    ∃ c2, p2.childUI = Option.some c2 ∧
      lookupA c2.optionsA k = Option.some (PyVal.int (M + K)) := by
  obtain ⟨copts2, c2, hpush, hp2, hcopts, hcops, hcmode⟩ :=
    finalise_child popts pops pnm pmode copts cops cnm cmode cchild p2 hfin
  have hmem : (k, PyVal.int M) ∈ popts := lookupA_mem popts k (PyVal.int M) hpar
  have hlk2 := pushAll_addcount pmode popts copts copts2 k M K o hnd hmem
    hglob hpl hparams hchild hpush
  refine ⟨c2, ?_, ?_⟩
  · rw [hp2]
    rfl
  · rw [hcopts, Int.add_comm M K]
    exact hlk2

/-- C4 (witness): the global repeatable --loud with parent count 2 and child
count 3 finalises to child count 2 + 3. -/
theorem c4_witness :
    ∃ c2, ParsedUI.childUI uiC4r = Option.some c2 ∧
      lookupA c2.optionsA "--loud" = Option.some (PyVal.int (2 + 3)) :=
  c4_theorem [("--loud", PyVal.int 2)] [] "" topMode [("--loud", PyVal.int 3)]
    [] "sub" subMode Option.none uiC4r "--loud" 2 3 optVerb
    (by decide) rfl rfl rfl rfl rfl rfl

/-- C5: for an option declared with name a and alias b (and no other
declared descriptor of the mode matching either spelling - the
well-formedness RedCLAP assumes), any successful parse in which the option
occurs yields a result whose get returns the same answer under the
canonical name and under the alias. -/
theorem c5_theorem (m : Mode) (o : OptionDescr) (a b : String)
    (args : List String) (ui : ParsedUI)
    (hn : o.name = a) (hal : o.aliasName = Option.some b) (hab : a ≠ b)
    (hoin : o ∈ m.allOpts)
    (hA : ∀ y ∈ m.allOpts, y.matchName a = true → y = o)
    (hB : ∀ y ∈ m.allOpts, y.matchName b = true → y = o)
    (hp : parse m args = Except.ok ui)
    (hpres : containsA ui.optionsA a = true) :
    ui.get a true = ui.get b true := by
  obtain ⟨hmode, occs, htok, hagg⟩ := parse_ok_parts m args ui hp
  have hga : m.getopt a = Option.some o :=
    getopt_eq_of_unique m o a hoin (by simp [OptionDescr.matchName, hn]) hA
  have hgb : m.getopt b = Option.some o :=
    getopt_eq_of_unique m o b hoin (by simp [OptionDescr.matchName, hal]) hB
  have hpaired : Paired a b occs :=
    tokenizeGo_paired m o a b hn hal hab hoin hA hB
      ((getinput m args).length + 1) (getinput m args) occs htok
  have hlk : lookupA ui.optionsA a = lookupA ui.optionsA b :=
    aggregate_paired m o a b hab hga hgb occs hpaired [] ui.optionsA rfl hagg
  obtain ⟨v, hv⟩ : ∃ v, lookupA ui.optionsA a = Option.some v := by
    simp only [containsA] at hpres
    exact Option.isSome_iff_exists.mp hpres
  have hvb : lookupA ui.optionsA b = Option.some v := by
    rw [← hlk]
    exact hv
  exact get_congr ui ui a b o v true
    (by rw [hmode]; exact hga)
    (by rw [hmode]; exact hgb)
    hv hvb

/-- C5 (witness): --verbose with alias -v, matched at the alias spelling,
is retrievable identically under either name. -/
theorem c5_witness : uiC5.get "--verbose" true = uiC5.get "-v" true :=
  c5_theorem modeV optV "--verbose" "-v" ["-v"] uiC5 rfl rfl (by decide)
    (by decide) (by decide) (by decide) rfl rfl

/-- C6: for any mode declaring the zero-arity option f, parsing
[f, --, a, b, c] yields operands exactly [a, b, c] and no child result,
whatever the tokens a, b, c are - in particular even when a names a child
mode, since the separator suppresses nested-mode detection. -/
theorem c6_theorem (m : Mode) (f : String) (o : OptionDescr) (a b c : String)
    (hllo : lookslikeopt f = true) (hgo : m.getopt f = Option.some o)
    (hpar : o.params = []) :
    ∃ ui, parse m [f, "--", a, b, c] = Except.ok ui ∧
      ui.operandsL = [a, b, c] ∧ ui.childUI = Option.none := by
  have hfne : f ≠ "--" := llo_ne_sep f hllo
  have hacc : m.accepts f = true := by simp [Mode.accepts, hgo]
  have hpf : m.params f = [] := by simp [Mode.params, hgo, hpar]
  have hwin : getinput m [f, "--", a, b, c] = [f] := by
    simp [getinput, getinputGo, hllo, hfne]
  have hc1 : (lookslikeopt f && m.accepts f && (m.params f).isEmpty) = true := by
    rw [hllo, hacc, hpf]
    rfl
  have htok : tokenize m [f] = Except.ok ((f, Option.none) ::
      (if m.aliasOf f ≠ f then [(m.aliasOf f, Option.none)] else [])) := by
    simp only [tokenize, tokenizeGo]
    rw [if_pos hc1]
    simp
  have hheu : getheuroperands m [f, "--", a, b, c] = Except.ok ([a, b, c], []) := by
    simp only [getheuroperands, hwin]
    rfl
  have hagg : ∃ opts, aggregate m ((f, Option.none) ::
      (if m.aliasOf f ≠ f then [(m.aliasOf f, Option.none)] else [])) [] =
      Except.ok opts := by
    obtain ⟨nv1, hs1⟩ := aggStep_none_ok m o f [] Option.none hgo rfl
    by_cases half : m.aliasOf f ≠ f
    · rw [if_pos half]
      obtain ⟨o2, hg2⟩ := getopt_aliasOf_isSome m o f hgo half
      have hlg : lookupA (insertA [] f nv1) (m.aliasOf f) = Option.none := by
        rw [lookupA_insertA_ne [] f (m.aliasOf f) nv1 half]
        rfl
      obtain ⟨nv2, hs2⟩ := aggStep_none_ok m o2 (m.aliasOf f)
        (insertA [] f nv1) Option.none hg2 hlg
      refine ⟨insertA (insertA [] f nv1) (m.aliasOf f) nv2, ?_⟩
      simp only [aggregate, hs1, hs2]
    · rw [if_neg half]
      refine ⟨insertA [] f nv1, ?_⟩
      simp only [aggregate, hs1]
  obtain ⟨opts, hopts⟩ := hagg
  refine ⟨.mk opts [a, b, c] "" m Option.none, ?_, rfl, rfl⟩
  simp only [parse, parseF, hwin, htok, hopts, hheu, Option.getD]

/-- C6 (witness): the concrete mode with --flag and a child mode named a
still produces operands [a, b, c] and no child. -/
theorem c6_witness :
    ∃ ui, parse modeFlag ["--flag", "--", "a", "b", "c"] = Except.ok ui ∧
      ui.operandsL = ["a", "b", "c"] ∧ ui.childUI = Option.none :=
  c6_theorem modeFlag "--flag" optFlag "a" "b" "c" rfl rfl rfl

/-- C7 (counterexample): the arity-one option -o appears as the last token
yet parse does not fail at all - the window is empty, so -o is never
consumed as an option and simply becomes an operand. -/
theorem c7_counterexample :
    parse modeO ["file1", "-o"] =
      Except.ok (.mk [] ["file1", "-o"] "" modeO Option.none) := by
  rfl

/-- C7 (amended): when the option tokenizer does reach an arity-one option
with no following token - as when the option is the whole input - parse
aborts with an uncaught IndexError raised while indexing the missing raw
parameter, not with a MissingOptionValue error (no such error exists in the
parser); and an arity-one option in the operand region is not treated as an
option at all. -/
theorem c7_theorem (m : Mode) (f p : String) (o : OptionDescr)
    (hllo : lookslikeopt f = true) (hgo : m.getopt f = Option.some o)
    (hpar : o.params = [p]) (hh : (typehandlers p).isSome = true) :
    parse m [f] = Except.error Err.indexError := by
  have hfne : f ≠ "--" := llo_ne_sep f hllo
  have hacc : m.accepts f = true := by simp [Mode.accepts, hgo]
  have hpf : m.params f = [p] := by simp [Mode.params, hgo, hpar]
  have hwin : getinput m [f] = [f] := by
    simp [getinput, getinputGo, hllo, hfne]
  have hc1 : ¬((lookslikeopt f && m.accepts f && (m.params f).isEmpty) = true) := by
    rw [hllo, hacc, hpf]
    simp
  have hc2 : (lookslikeopt f && m.accepts f && !(m.params f).isEmpty) = true := by
    rw [hllo, hacc, hpf]
    rfl
  obtain ⟨cb, hcb⟩ := Option.isSome_iff_exists.mp hh
  have hco : coerce (m.params f) [] = Except.error Err.indexError := by
    rw [hpf]
    simp only [coerce, hcb]
  have htok : tokenize m [f] = Except.error Err.indexError := by
    simp only [tokenize, tokenizeGo]
    rw [if_neg hc1, if_pos hc2]
    simp only [List.take_nil, hco]
  simp only [parse, parseF, hwin, htok, Option.getD]

/-- C7 (witness): parsing the single token -o (arity one, str parameter)
aborts with the IndexError. -/
theorem c7_witness : parse modeO ["-o"] = Except.error Err.indexError :=
  c7_theorem modeO "-o" "str" optO rfl rfl rfl rfl

/-- C8 (counterexample): the membership test for a name the mode never
declared returns the plain boolean false - it does not fail with an
OptionNotFound error. -/
theorem c8_counterexample :
    ParsedUI.containsOpt (.mk [] [] "" rootMode Option.none) "-q" = false := by
  rfl

/-- C8 (amended): querying get for a name the mode never declared fails
with the OptionNotFound error of the mode's descriptor lookup, but contains
merely reports dict membership in the options map: it returns false, never
an error, for a name with no entry. -/
theorem c8_theorem (ops : List (String × PyVal)) (opnds : List String)
    (nm : String) (md : Mode) (ch : Option ParsedUI) (k : String)
    (hundeclared : md.getopt k = Option.none)
    (habsent : lookupA ops k = Option.none) :
    (ParsedUI.mk ops opnds nm md ch).get k true =
      Except.error (Err.optionNotFound k) ∧
    (ParsedUI.mk ops opnds nm md ch).containsOpt k = false := by
  constructor
  · simp only [ParsedUI.get, ParsedUI.modeOf, hundeclared]
  · simp only [ParsedUI.containsOpt, containsA, ParsedUI.optionsA, habsent,
      Option.isSome]

/-- C8 (witness): the undeclared name -q makes get fail with OptionNotFound
while contains returns false. -/
theorem c8_witness :
    ParsedUI.get (.mk [] [] "" rootMode Option.none) "-q" true =
      Except.error (Err.optionNotFound "-q") ∧
    ParsedUI.containsOpt (.mk [] [] "" rootMode Option.none) "-q" = false :=
  c8_theorem [] [] "" rootMode Option.none "-q" rfl rfl

/-- C9: parsing terminates on every finite token sequence - any recursion
budget above the token count computes the same total result parse - and on
success the number of recursive nested-mode invocations in the returned
chain is at most the number of input tokens. -/
theorem c9_theorem (m : Mode) (args : List String) (fuel : Nat)
    (hfuel : args.length < fuel) :
    parseF fuel m args = Option.some (parse m args) ∧
    ∀ ui, parse m args = Except.ok ui → ui.nmodes ≤ args.length := by
  constructor
  · exact parseF_mono (args.length + 1) fuel (by omega) m args (parse m args)
      (parse_eq_parseF m args)
  · intro ui h
    exact parse_nmodes m args ui h

/-- C9 (witness): on the three-token nested invocation of the root/go
fixture, fuel 9 already computes the final result and the chain has at most
three nested invocations. -/
theorem c9_witness :
    parseF 9 rootMode ["-x", "go", "-y"] =
      Option.some (parse rootMode ["-x", "go", "-y"]) ∧
    uiC9.nmodes ≤ (["-x", "go", "-y"] : List String).length :=
  ⟨(c9_theorem rootMode ["-x", "go", "-y"] 9 (by decide)).1,
   (c9_theorem rootMode ["-x", "go", "-y"] 9 (by decide)).2 uiC9 rfl⟩

/-- C10 (counterexample): feeding a child-only option as the very first
token does not crash parse - the token is absorbed into the input window
(the window takes every option-looking prefix token regardless of
acceptance), so the heuristic never sees it, and parse returns an ordinary
empty result. -/
theorem c10_counterexample :
    parse rootMode ["-y"] = Except.ok (.mk [] [] "" rootMode Option.none) := by
  rfl

/-- C10 (amended): _heuralgo itself, called directly on a slice whose first
token looks like an option accepted by a child mode, does abort with the
uncaught IndexError of popping the empty operand list; but the slice parse
passes to the splitter never starts with an option-looking token, so the
splitter - and hence parse - never fails this way. -/
theorem c10_theorem :
    heuralgo rootMode ["-y"] = Except.error Err.indexError ∧
    ∀ (m : Mode) (args : List String), ∃ r, getheuroperands m args = Except.ok r := by
  exact ⟨rfl, fun m args => getheuroperands_ok m args⟩

end RedClap